import Mathlib

/-!
Verification of the calmmap route engine (main.go): segment data model,
adjacency construction, BFS path finding, and the three-stage discovery
pipeline. Pure Go functions are translated into executable Lean
definitions; the sqlite-backed store is modelled as an in-memory list
store whose queries mirror the SQL filters of the source. The external
geodesic distance function (orb/geo) is a parameter.
-/

namespace Calmmap

/-- Coordinates of the geometry source, modelled as rational pairs. -/
abbrev Point := Rat × Rat

/-- Distance metric used by endpoint proximity tests. In the source this is
the external function geo.Distance from the orb library, which is not part
of this repository, so it stays a parameter of the development. -/
abbrev Dist := Point → Point → Rat

/-- Mirror of the Go struct segment. The Go fields from and to are named
fromStr and toStr here because both words are Lean keywords; they mirror
the DB columns from_str and to_str. -/
structure segment where
  id : Int
  name : String
  fromStr : String
  toStr : String
  direction : String
  routeID : Int
  lineString : List Point
  firstPoint : Point
  lastPoint : Point
  streetName : String
  streetType : String
  streetClass : String
deriving DecidableEq, Repr, Inhabited

/-- Mirror of the Go struct request. -/
structure request where
  streetName : String
  fromStr : String
  toStr : String
  district : String
  rank : Int
deriving DecidableEq, Repr, Inhabited

/-- Mirror of the Go struct processingRequest. -/
structure processingRequest where
  req : request
  startSegments : List segment
  endSegments : List segment
deriving DecidableEq, Repr, Inhabited

/-- One row of the segment_links table: (id, route_id, next_id). -/
structure Link where
  id : Int
  routeID : Int
  nextID : Int
deriving DecidableEq, Repr, Inhabited

/-- In-memory model of the sqlite store: the segments table and the
segment_links table, each as a list of rows in table order. -/
structure Store where
  segments : List segment
  links : List Link
deriving DecidableEq, Repr, Inhabited

/-- Mirror of the Go struct segmentFilter. -/
structure segmentFilter where
  ids : List Int
  fullNames : List String
  routeIDs : List Int
  endStreets : List String
deriving DecidableEq, Repr, Inhabited

/-- Mirror of the Go struct requestAttempt; errors are Option String. -/
structure requestAttempt where
  startSegments : List segment
  startErr : Option String
  endSegments : List segment
  endErr : Option String
  routeSegments : List segment
  routeErr : Option String
deriving DecidableEq, Repr, Inhabited

/-- Mirror of the Go struct requestResult. -/
structure requestResult where
  startSegments : List segment
  endSegments : List segment
  routeSegments : List segment
deriving DecidableEq, Repr, Inhabited

/-- Decidable equality for Except results, used to evaluate the embedded
functions on concrete inputs. -/
instance {e a : Type} [DecidableEq e] [DecidableEq a] : DecidableEq (Except e a) := fun x y =>
  match x, y with
  | .ok u, .ok v =>
    if h : u = v then isTrue (by rw [h]) else isFalse (fun hh => by cases hh; exact h rfl)
  | .ok _, .error _ => isFalse (fun hh => Except.noConfusion hh)
  | .error _, .ok _ => isFalse (fun hh => Except.noConfusion hh)
  | .error u, .error v =>
    if h : u = v then isTrue (by rw [h]) else isFalse (fun hh => by cases hh; exact h rfl)

/-- ASCII uppercase of a string, modelling SQL upper(); written by simple
structural recursion so that concrete instances evaluate in the kernel. -/
def goUpper (s : String) : String := ⟨s.data.map Char.toUpper⟩

/-- The ASCII apostrophe character, written by code to avoid quoting issues. -/
def quoteChar : Char := Char.ofNat 39

/-- Mirror of strings.ReplaceAll(s, apostrophe, empty) as used by
startDiscovery and endDiscovery: every apostrophe is removed. -/
def stripQuote (s : String) : String :=
  ⟨s.data.filter (fun c => decide (c ≠ quoteChar))⟩

/-- Row predicate of sqliteStore.filterSegments: dimensions are combined
with AND, values inside one dimension with OR; name comparisons go through
SQL upper() applied to the query argument. -/
def segMatches (f : segmentFilter) (s : segment) : Bool :=
  decide ((f.ids = [] ∨ s.id ∈ f.ids) ∧
    (f.fullNames = [] ∨ ∃ fn ∈ f.fullNames, s.name = goUpper fn) ∧
    (f.routeIDs = [] ∨ s.routeID ∈ f.routeIDs) ∧
    (f.endStreets = [] ∨ ∃ es ∈ f.endStreets, s.fromStr = goUpper es ∨ s.toStr = goUpper es))

/-- Mirror of sqliteStore.filterSegments: the matching rows in table order. -/
def filterSegmentsGo (st : Store) (f : segmentFilter) : List segment :=
  st.segments.filter (segMatches f)

/-- Distinct route ids in first-appearance order; models the Go map
routeIDs of startDiscovery, whose only observed property is its size. -/
def distinctRouteIDs (segs : List segment) : List Int :=
  segs.foldl (fun acc s => if s.routeID ∈ acc then acc else acc ++ [s.routeID]) []

/-- Filter built by startDiscovery: normalized full name and, when a from
cross-street is given, the endpoint name. -/
def startFilter (preq : processingRequest) : segmentFilter :=
  { ids := [], fullNames := [stripQuote preq.req.streetName], routeIDs := [],
    endStreets := if preq.req.fromStr = "" then [] else [stripQuote preq.req.fromStr] }

/-- Mirror of the body of startDiscovery after the filter is built. -/
def startDiscoveryGo (st : Store) (preq : processingRequest) : Except String (List segment) :=
  let segs := filterSegmentsGo st (startFilter preq)
  if (distinctRouteIDs segs).length > 1 then
    .error ("discovered segments with " ++ toString (distinctRouteIDs segs).length ++ " different route IDs")
  else
    .ok segs

/-- Mirror of endDiscovery: filter by the route id of the first start
segment and, when a to cross-street is given, by endpoint name. -/
def endDiscoveryGo (st : Store) (preq : processingRequest) : Except String (List segment) :=
  let filter : segmentFilter :=
    { ids := [], fullNames := [], routeIDs := [(preq.startSegments.headD default).routeID],
      endStreets := if preq.req.toStr = "" then [] else [stripQuote preq.req.toStr] }
  .ok (filterSegmentsGo st filter)

/-- Endpoint proximity test of loadSegments: distance strictly below the
fixed threshold 1.0. -/
def isClose (dist : Dist) (a b : Point) : Bool :=
  decide (dist a b < 1)

/-- Mirror of segment.String(): the Go format is id, name, from, to. -/
def segString (s : segment) : String :=
  toString s.id ++ " " ++ s.name ++ " from " ++ s.fromStr ++ " to " ++ s.toStr

/-- Error message of the default branch of the direction switch. -/
def unknownPairMsg (cur next : segment) : String :=
  "unknown direction pair: " ++ cur.direction ++ " and " ++ next.direction ++ ", " ++
    segString cur ++ " / " ++ segString next

/-- Mirror of the matches closure of sqliteStore.loadSegments: walk the
route segments in order, skip the segment itself by id, and decide an edge
by the switch on the concatenated direction pair. -/
def matchesGo (dist : Dist) (segs : List segment) (cur : segment) : Except String (List segment) :=
  match segs with
  | [] => .ok []
  | next :: rest =>
    if cur.id = next.id then matchesGo dist rest cur
    else
      let key := cur.direction ++ " " ++ next.direction
      if key = "BOTH BOTH" then
        if isClose dist cur.firstPoint next.firstPoint || isClose dist cur.firstPoint next.lastPoint ||
            isClose dist cur.lastPoint next.firstPoint || isClose dist cur.lastPoint next.lastPoint then
          (matchesGo dist rest cur).map (fun out => next :: out)
        else matchesGo dist rest cur
      else if key = "BOTH FOTD" then
        if isClose dist next.firstPoint cur.firstPoint || isClose dist next.firstPoint cur.lastPoint then
          (matchesGo dist rest cur).map (fun out => next :: out)
        else matchesGo dist rest cur
      else if key = "BOTH FDTO" then matchesGo dist rest cur
      else if key = "FOTD FOTD" then
        if isClose dist next.firstPoint cur.lastPoint then
          (matchesGo dist rest cur).map (fun out => next :: out)
        else matchesGo dist rest cur
      else if key = "FOTD BOTH" then
        if isClose dist cur.lastPoint next.firstPoint || isClose dist cur.lastPoint next.lastPoint then
          (matchesGo dist rest cur).map (fun out => next :: out)
        else matchesGo dist rest cur
      else if key = "FDTO BOTH" then matchesGo dist rest cur
      else .error (unknownPairMsg cur next)

/-- Modelled from the spec: the directionality-pair table of section 4.1,
written directly from its wording, as a predicate on an ordered segment
pair. Any pair of direction classes outside the table allows no edge. -/
def specEdgeAllowed (dist : Dist) (cur next : segment) : Bool :=
  match cur.direction, next.direction with
  | "BOTH", "BOTH" =>
    isClose dist cur.firstPoint next.firstPoint || isClose dist cur.firstPoint next.lastPoint ||
      isClose dist cur.lastPoint next.firstPoint || isClose dist cur.lastPoint next.lastPoint
  | "BOTH", "FOTD" =>
    isClose dist next.firstPoint cur.firstPoint || isClose dist next.firstPoint cur.lastPoint
  | "BOTH", "FDTO" => false
  | "FOTD", "FOTD" => isClose dist next.firstPoint cur.lastPoint
  | "FOTD", "BOTH" =>
    isClose dist cur.lastPoint next.firstPoint || isClose dist cur.lastPoint next.lastPoint
  | "FDTO", "BOTH" => false
  | _, _ => false

/-- The six direction pairs enumerated by the switch of matchesGo. -/
def knownPairs : List (String × String) :=
  [("BOTH", "BOTH"), ("BOTH", "FOTD"), ("BOTH", "FDTO"),
   ("FOTD", "FOTD"), ("FOTD", "BOTH"), ("FDTO", "BOTH")]

/-- Route ids of a load batch in first-appearance order. The Go code
groups by route in a map and iterates it in unspecified order; the edge
rows of different routes never interact, so the model fixes
first-appearance order. -/
def routeOrder (segs : List segment) : List Int :=
  segs.foldl (fun acc s => if s.routeID ∈ acc then acc else acc ++ [s.routeID]) []

/-- Edge rows produced for the segments of one route group, in group
order; the first unknown direction pair aborts with its error. -/
def buildSegLinks (dist : Dist) (group : List segment) : List segment → Except String (List Link)
  | [] => .ok []
  | seg :: rest => do
    let outs ← matchesGo dist group seg
    let tail ← buildSegLinks dist group rest
    .ok (outs.map (fun nxt => ⟨seg.id, seg.routeID, nxt.id⟩) ++ tail)

/-- Edge rows of a whole load batch, walking its route groups. -/
def buildRoutesLinks (dist : Dist) (segs : List segment) : List Int → Except String (List Link)
  | [] => .ok []
  | rid :: rids => do
    let group := segs.filter (fun s => decide (s.routeID = rid))
    let here ← buildSegLinks dist group group
    let tail ← buildRoutesLinks dist segs rids
    .ok (here ++ tail)

/-- Mirror of sqliteStore.loadSegments. The source runs two transactions:
the first inserts and commits all segment rows, the second builds and
commits all edge rows; an error while building edges rolls back only the
second transaction. The pair returned is the store state after the call
and the error, if any. -/
def loadSegmentsGo (dist : Dist) (db : Store) (segs : List segment) : Store × Option String :=
  let db1 : Store := ⟨db.segments ++ segs, db.links⟩
  match buildRoutesLinks dist segs (routeOrder segs) with
  | .error e => (db1, some e)
  | .ok ls => (⟨db1.segments, db.links ++ ls⟩, none)

/-- First row of the segments table with the given id, as the scalar
subquery select route_id from segments where id reads it. -/
def storeLookup (st : Store) (i : Int) : Option segment :=
  st.segments.find? (fun s => decide (s.id = i))

/-- The (id, next_id) pairs of segment_links rows whose route_id equals
the route id looked up for the first from segment, in table order; an
absent segment row makes the subquery NULL and matches no link row. -/
def routeLinksOf (st : Store) (f0 : segment) : List (Int × Int) :=
  match storeLookup st f0.id with
  | none => []
  | some s => (st.links.filter (fun l => decide (l.routeID = s.routeID))).map (fun l => (l.id, l.nextID))

/-- Key set of the Go graph map: the first from segment is always a key,
plus both columns of every link row of the route. -/
def graphKeysGo (st : Store) (fs : List segment) : List Int :=
  match fs with
  | [] => []
  | f0 :: _ => f0.id :: ((routeLinksOf st f0).map Prod.fst ++ (routeLinksOf st f0).map Prod.snd)

/-- Adjacency list lookup graph[lid]: next ids of link rows with id lid,
in row order; a missing key reads as the empty list, as in Go. -/
def adjOf (links : List (Int × Int)) (i : Int) : List Int :=
  (links.filter (fun l => decide (l.1 = i))).map Prod.snd

/-- Queue entries pushed when a path is expanded: one extended copy per
forward edge whose target is not yet on the path. -/
def childrenOf (links : List (Int × Int)) (p : List Int) : List (List Int) :=
  ((adjOf links (p.getLastD 0)).filter (fun nid => decide (nid ∉ p))).map (fun nid => p ++ [nid])

/-- Geometric bound used as BFS fuel: gBound b m strictly dominates the
number of loop iterations a queue entry with m unvisited nodes can cause
when no adjacency list is longer than b. -/
def gBound (b : Nat) : Nat → Nat
  | 0 => 1
  | m + 1 => 1 + b * gBound b m

/-- Number of possible next ids not yet on the path. -/
def remCount (links : List (Int × Int)) (p : List Int) : Nat :=
  (((links.map Prod.snd).dedup).filter (fun x => decide (x ∉ p))).length

/-- Fuel bound for a whole queue. -/
def bfsMeasure (links : List (Int × Int)) (q : List (List Int)) : Nat :=
  (q.map (fun p => gBound links.length (remCount links p))).sum

/-- Fuel-indexed translation of the BFS loop of sqliteStore.route: pop the
front path, stop when its last id is an end id, otherwise push all simple
extensions. -/
def bfsFuel (links : List (Int × Int)) (toIDs : List Int) : Nat → List (List Int) → Option (List Int)
  | 0, _ => none
  | _ + 1, [] => none
  | fuel + 1, p :: rest =>
    if p.getLastD 0 ∈ toIDs then some p
    else bfsFuel links toIDs fuel (rest ++ childrenOf links p)

/-- The BFS of sqliteStore.route, run with provably sufficient fuel. -/
def bfsGo (links : List (Int × Int)) (toIDs : List Int) (seed : Int) : Option (List Int) :=
  bfsFuel links toIDs (bfsMeasure links [[seed]]) [[seed]]

/-- Final fetch step of sqliteStore.route: the filtered rows are reordered
along the id path through the map segsByID (later rows win, a missing id
yields the zero segment); rows beyond the path length stay in place. Go
panics when fewer rows than path entries come back; the panic is modelled
by the distinguished error below. -/
def fetchGo (path : List Int) (segs : List segment) : List segment :=
  path.map (fun i => ((segs.reverse.find? (fun s => decide (s.id = i))).getD default)) ++
    segs.drop path.length

/-- Mirror of sqliteStore.route. -/
def routeGo (st : Store) (fromSegments toSegments : List segment) : Except String (List segment) :=
  match fromSegments, toSegments with
  | [], _ => .error "empty fromSegments or empty toSegments"
  | _ :: _, [] => .error "empty fromSegments or empty toSegments"
  | f0 :: _, _ :: _ =>
    let links := routeLinksOf st f0
    let keys := f0.id :: (links.map Prod.fst ++ links.map Prod.snd)
    match toSegments.find? (fun t => decide (t.id ∉ keys)) with
    | some t => .error ("to segment " ++ toString t.id ++ " not found in route graph")
    | none =>
      match bfsGo links (toSegments.map (fun s => s.id)) f0.id with
      | none => .error "could not find path"
      | some path =>
        if (st.segments.filter (fun s => decide (s.id ∈ path))).length < path.length then
          .error "panic: fewer fetched segments than path entries"
        else .ok (fetchGo path (st.segments.filter (fun s => decide (s.id ∈ path))))

/-- Mirror of the start-trimming loop of routeDiscovery: drop the head
while more than two segments remain and the second id is in startIDs. -/
def trimLoop (startIDs : List Int) : List segment → List segment
  | a :: b :: c :: rest =>
    if b.id ∈ startIDs then trimLoop startIDs (b :: c :: rest) else a :: b :: c :: rest
  | l => l

/-- Mirror of the startIDs construction plus the trimming loop. The Go
code allocates the id slice with make of the full length and then
appends, so the slice carries one zero per start segment in front of the
real ids; this is kept faithfully. -/
def trimGo (startSegments route : List segment) : List segment :=
  trimLoop (List.replicate startSegments.length 0 ++ startSegments.map (fun s => s.id)) route

/-- Modelled from the spec: the trimming loop as section 4.3 words it,
consulting exactly the set of start-candidate ids. -/
def specTrim (startSegments route : List segment) : List segment :=
  trimLoop (startSegments.map (fun s => s.id)) route

/-- Mirror of the longest-route loop of routeDiscovery: search from the
fixed seed to each end candidate in turn, keeping the longest result,
starting from the already-found route. -/
def longestLoop (st : Store) (seed : segment) : List segment → List segment → Except String (List segment)
  | path, [] => .ok path
  | path, e :: es =>
    match routeGo st [seed] [e] with
    | .error err => .error err
    | .ok c => longestLoop st seed (if path.length < c.length then c else path) es

/-- Mirror of routeDiscovery. -/
def routeDiscoveryGo (st : Store) (preq : processingRequest) : Except String (List segment) :=
  if preq.req.fromStr = "" ∧ preq.req.toStr = "" then
    .ok (filterSegmentsGo st
      { ids := [], fullNames := [], routeIDs := [(preq.startSegments.headD default).routeID], endStreets := [] })
  else
    match routeGo st preq.startSegments preq.endSegments with
    | .error e => .error e
    | .ok route0 =>
      let route1 := if preq.req.fromStr = "" then route0 else trimGo preq.startSegments route0
      if preq.req.toStr = "" ∨ preq.req.toStr = preq.req.fromStr then
        longestLoop st (route1.headD default) route1 preq.endSegments
      else .ok route1

/-- Mirror of overrideDiscovery. The override source is the filesystem in
Go (one file per request rank and stage, holding segment ids); it is
modelled as a lookup function from rank and stage name to the parsed id
list, with none for a missing file. -/
def overrideDiscoveryGo (ov : Int → String → Option (List Int)) (whenStage : String)
    (st : Store) (next : processingRequest → List segment × Option String)
    (preq : processingRequest) : List segment × Option String :=
  match ov preq.req.rank whenStage with
  | none => next preq
  | some ids => (filterSegmentsGo st { ids := ids, fullNames := [], routeIDs := [], endStreets := [] }, none)

/-- Adapter from Except-valued stage logic to the Go pair convention. -/
def toPair (r : Except String (List segment)) : List segment × Option String :=
  match r with
  | .ok s => (s, none)
  | .error e => ([], some e)

/-- Default start handler of newDefaultRequestHandler. -/
def defaultStartHandler (ov : Int → String → Option (List Int)) (st : Store) :
    processingRequest → List segment × Option String :=
  overrideDiscoveryGo ov "start" st (fun preq => toPair (startDiscoveryGo st preq))

/-- Default end handler of newDefaultRequestHandler. -/
def defaultEndHandler (ov : Int → String → Option (List Int)) (st : Store) :
    processingRequest → List segment × Option String :=
  overrideDiscoveryGo ov "end" st (fun preq => toPair (endDiscoveryGo st preq))

/-- Default route handler of newDefaultRequestHandler. -/
def defaultRouteHandler (ov : Int → String → Option (List Int)) (st : Store) :
    processingRequest → List segment × Option String :=
  overrideDiscoveryGo ov "route" st (fun preq => toPair (routeDiscoveryGo st preq))

/-- Mirror of requestHandler.handleAttempt with the three stage handlers
as parameters. -/
def handleAttemptGo (sh eh rh : processingRequest → List segment × Option String)
    (req : request) : requestAttempt :=
  let preq0 : processingRequest := ⟨req, [], []⟩
  let s := sh preq0
  if s.1.isEmpty then
    { startSegments := s.1, startErr := some "no start segments found",
      endSegments := [], endErr := some "no start segments found",
      routeSegments := [], routeErr := some "no start segments found" }
  else
    let preq1 : processingRequest := ⟨req, s.1, []⟩
    let e := eh preq1
    if e.1.isEmpty then
      { startSegments := s.1, startErr := s.2,
        endSegments := e.1, endErr := some "no end segments found",
        routeSegments := [], routeErr := some "no end segments found" }
    else
      let preq2 : processingRequest := ⟨req, s.1, e.1⟩
      let r := rh preq2
      { startSegments := s.1, startErr := s.2,
        endSegments := e.1, endErr := e.2,
        routeSegments := r.1, routeErr := r.2 }

/-- Mirror of requestHandler.handle: the first of the three stage errors,
in stage order, fails the request. -/
def handleGo (sh eh rh : processingRequest → List segment × Option String)
    (req : request) : Except String requestResult :=
  let att := handleAttemptGo sh eh rh req
  match att.startErr with
  | some e => .error e
  | none =>
    match att.endErr with
    | some e => .error e
    | none =>
      match att.routeErr with
      | some e => .error e
      | none => .ok ⟨att.startSegments, att.endSegments, att.routeSegments⟩

/-- Base segment for examples: route 1, bidirectional, all points at the
origin; the example stores below give edges directly as link rows. -/
def baseSeg : segment :=
  { id := 0, name := "TEST LN", fromStr := "A ST", toStr := "B ST", direction := "BOTH",
    routeID := 1, lineString := [], firstPoint := (0, 0), lastPoint := (0, 0),
    streetName := "TEST", streetType := "LN", streetClass := "" }

/-- Example segment with id 1. -/
def segA : segment := { baseSeg with id := 1 }

/-- Example segment with id 2. -/
def segB : segment := { baseSeg with id := 2 }

/-- Example segment with id 3. -/
def segC : segment := { baseSeg with id := 3 }

/-- Example segment with id 4. -/
def segD : segment := { baseSeg with id := 4 }

/-- Example store: chain 1 -> 2 -> 3 -> 4 on route 1. -/
def chainStore : Store :=
  { segments := [segA, segB, segC, segD],
    links := [⟨1, 1, 2⟩, ⟨2, 1, 3⟩, ⟨3, 1, 4⟩] }

/-- Example request: from given, to empty. -/
def reqFromOnly : request :=
  { streetName := "Test Ln", fromStr := "A St", toStr := "", district := "", rank := 1 }

/-- Example segment with id 5 used by the trim example. -/
def segF : segment := { baseSeg with id := 5 }

/-- Example segment with id 0 used by the trim example. -/
def segZ : segment := { baseSeg with id := 0 }

/-- Example segment with id 7 used by the trim example. -/
def segG : segment := { baseSeg with id := 7 }

/-- Example store with no link rows: two segments of route 1 that are
both isolated nodes. -/
def isolatedStore : Store := { segments := [segA, segB], links := [] }

/-- Example segment with an unknown directionality class pairing. -/
def segBad1 : segment := { baseSeg with id := 21, direction := "FDTO" }

/-- Second example segment with an unknown directionality class pairing. -/
def segBad2 : segment := { baseSeg with id := 22, direction := "FDTO" }

/-- Constant distance function for witnesses: everything is far apart. -/
def distFar : Dist := fun _ _ => 2

/-- Example segment with id 10 used by the override example. -/
def segTen : segment := { baseSeg with id := 10, name := "X ST" }

/-- Example store holding only the override target segment. -/
def overrideStore : Store := { segments := [segTen], links := [] }

/-- Example override source: rank 1 has a start override naming id 10,
every other rank and stage has none. -/
def ovOne : Int → String → Option (List Int) :=
  fun r s => if r = 1 ∧ s = "start" then some [10] else none

/-- Example request resolving to nothing without an override. -/
def reqOvA : request :=
  { streetName := "Y ST", fromStr := "", toStr := "", district := "", rank := 1 }

/-- Same request with a different rank. -/
def reqOvB : request :=
  { streetName := "Y ST", fromStr := "", toStr := "", district := "", rank := 2 }

/-- Stage handler that fails with a route ambiguity error, as
startDiscovery does when matches span two route ids. -/
def ambStartHandler : processingRequest → List segment × Option String :=
  fun _ => ([], some "discovered segments with 2 different route IDs")

/-- Stage handler returning nothing, never consulted in the example. -/
def trivHandler : processingRequest → List segment × Option String :=
  fun _ => ([], none)

/-- Claim C5, counterexample: when start discovery fails with a route
ambiguity error, the error surfaced to the caller is the generic message
"no start segments found", not the ambiguity error, contradicting the
claim that the first meaningful error (the ambiguity) is reported. -/
theorem c5_handle_cex :
    handleGo ambStartHandler trivHandler trivHandler reqOvA =
      Except.error "no start segments found" ∧
    ambStartHandler ⟨reqOvA, [], []⟩ =
      ([], some "discovered segments with 2 different route IDs") ∧
    "no start segments found" ≠ "discovered segments with 2 different route IDs" := by
  refine ⟨by decide, rfl, by decide⟩

/-- Claim C5 as amended: a stage that yields no segments marks itself and
every later stage failed with the descriptive reason, later handlers do
not influence the outcome, and request resolution surfaces that
descriptive reason in place of the stage error; a stage error beside a
non-empty result is surfaced in stage order. -/
theorem c5_handle_amended (sh eh rh : processingRequest → List segment × Option String)
    (req : request) :
    handleGo sh eh rh req =
      (let s := sh ⟨req, [], []⟩
       if s.1.isEmpty then Except.error "no start segments found"
       else
         match s.2 with
         | some e => Except.error e
         | none =>
           let ev := eh ⟨req, s.1, []⟩
           if ev.1.isEmpty then Except.error "no end segments found"
           else
             match ev.2 with
             | some e => Except.error e
             | none =>
               match rh ⟨req, s.1, ev.1⟩ with
               | (_, some e) => Except.error e
               | (rs, none) => Except.ok ⟨s.1, ev.1, rs⟩) := by
  unfold handleGo handleAttemptGo
  rcases hs : sh ⟨req, [], []⟩ with ⟨ss, se⟩
  by_cases h1 : ss.isEmpty
  · simp [hs, h1]
  · rcases he : eh ⟨req, ss, []⟩ with ⟨es, ee⟩
    by_cases h2 : es.isEmpty
    · rcases se with _ | e <;> simp [hs, he, h1, h2]
    · rcases hr : rh ⟨req, ss, es⟩ with ⟨rs, re⟩
      rcases se with _ | e
      · rcases ee with _ | e2
        · rcases re with _ | e3 <;> simp [hs, he, hr, h1, h2]
        · simp [hs, he, hr, h1, h2]
      · simp [hs, he, hr, h1, h2]

/-- Claim C9, counterexample: two requests identical except for their
rank resolve differently through the default start stage, because the
override lookup is keyed by rank. -/
theorem c9_rank_cex :
    defaultStartHandler ovOne overrideStore ⟨reqOvA, [], []⟩ ≠
      defaultStartHandler ovOne overrideStore ⟨reqOvB, [], []⟩ := by
  decide

/-- Claim C9 as amended: the algorithmic start, end, and route discovery
stages never read the rank, so two requests differing only in rank get
identical stage results there; rank enters resolution only as the key of
the override lookup. -/
theorem c9_rank_free (st : Store) (sn f t d : String) (r1 r2 : Int) (ss es : List segment) :
    startDiscoveryGo st ⟨⟨sn, f, t, d, r1⟩, ss, es⟩ =
        startDiscoveryGo st ⟨⟨sn, f, t, d, r2⟩, ss, es⟩ ∧
    endDiscoveryGo st ⟨⟨sn, f, t, d, r1⟩, ss, es⟩ =
        endDiscoveryGo st ⟨⟨sn, f, t, d, r2⟩, ss, es⟩ ∧
    routeDiscoveryGo st ⟨⟨sn, f, t, d, r1⟩, ss, es⟩ =
        routeDiscoveryGo st ⟨⟨sn, f, t, d, r2⟩, ss, es⟩ :=
  ⟨rfl, rfl, rfl⟩

/-- Claim C7: the trimming loop is meant to drop the head only while the
second id is a start-candidate id, but the Go code builds startIDs with
make of the full length followed by append, leaving one zero per start
segment in the slice; a path whose second segment has id 0 is therefore
trimmed even though 0 is not a start-candidate id. The spec-modelled trim
keeps the path intact. -/
theorem c7_trim_zero_bug :
    trimGo [segF] [segF, segZ, segG] = [segZ, segG] ∧
    (0 : Int) ∉ [segF].map (fun s => s.id) ∧
    specTrim [segF] [segF, segZ, segG] = [segF, segZ, segG] := by
  decide

/-- Claim C4, counterexample: a batch whose adjacency construction fails
on an unknown directionality pair still leaves the segment rows visible
in the store, because they were committed by the first transaction. -/
theorem c4_load_cex :
    (loadSegmentsGo distFar ⟨[], []⟩ [segBad1, segBad2]).2.isSome = true ∧
    (loadSegmentsGo distFar ⟨[], []⟩ [segBad1, segBad2]).1.segments = [segBad1, segBad2] ∧
    [segBad1, segBad2] ≠ ([] : List segment) := by
  decide

/-- Claim C4 as amended: a load batch commits in two atomic steps. The
segment rows always become visible; the edge rows are all-or-nothing, so
an adjacency failure leaves the previous edge set untouched while the
segment rows of the batch remain. -/
theorem c4_load_amended (dist : Dist) (db : Store) (segs : List segment) :
    (loadSegmentsGo dist db segs).1.segments = db.segments ++ segs ∧
    ((loadSegmentsGo dist db segs).2.isSome = true →
      (loadSegmentsGo dist db segs).1.links = db.links) ∧
    ((loadSegmentsGo dist db segs).2 = none →
      ∃ ls, (loadSegmentsGo dist db segs).1.links = db.links ++ ls) := by
  unfold loadSegmentsGo
  rcases h : buildRoutesLinks dist segs (routeOrder segs) with e | ls <;> simp [h]

/-- Witness for c4_load_amended at the failing batch: the edge table
stays empty after the failed load. -/
theorem c4_load_amended_witness :
    (loadSegmentsGo distFar ⟨[], []⟩ [segBad1, segBad2]).1.links = ([] : List Link) :=
  (c4_load_amended distFar ⟨[], []⟩ [segBad1, segBad2]).2.1 (by decide)

/-- Membership in the running distinct-route-id accumulator. -/
theorem mem_routeAcc (segs : List segment) :
    ∀ (acc : List Int) (x : Int),
      (x ∈ segs.foldl (fun acc s => if s.routeID ∈ acc then acc else acc ++ [s.routeID]) acc ↔
        x ∈ acc ∨ ∃ s ∈ segs, s.routeID = x) := by
  induction segs with
  | nil => intro acc x; simp
  | cons a rest ih =>
    intro acc x
    simp only [List.foldl_cons, ih, List.mem_cons]
    by_cases h : a.routeID ∈ acc
    · simp only [if_pos h]
      constructor
      · rintro (hx | hs)
        · exact Or.inl hx
        · exact Or.inr ⟨hs.choose, Or.inr hs.choose_spec.1, hs.choose_spec.2⟩
      · rintro (hx | ⟨s, hs | hs, hrid⟩)
        · exact Or.inl hx
        · subst hs; exact Or.inl (hrid ▸ h)
        · exact Or.inr ⟨s, hs, hrid⟩
    · simp only [if_neg h, List.mem_append, List.mem_singleton]
      constructor
      · rintro ((hx | hx) | hs)
        · exact Or.inl hx
        · exact Or.inr ⟨a, Or.inl rfl, hx.symm⟩
        · exact Or.inr ⟨hs.choose, Or.inr hs.choose_spec.1, hs.choose_spec.2⟩
      · rintro (hx | ⟨s, hs | hs, hrid⟩)
        · exact Or.inl (Or.inl hx)
        · subst hs; exact Or.inl (Or.inr hrid.symm)
        · exact Or.inr ⟨s, hs, hrid⟩

/-- The distinct-route-id accumulator never introduces duplicates. -/
theorem nodup_routeAcc (segs : List segment) :
    ∀ (acc : List Int), acc.Nodup →
      (segs.foldl (fun acc s => if s.routeID ∈ acc then acc else acc ++ [s.routeID]) acc).Nodup := by
  induction segs with
  | nil => intro acc h; simpa using h
  | cons a rest ih =>
    intro acc h
    simp only [List.foldl_cons]
    by_cases hm : a.routeID ∈ acc
    · simpa [if_pos hm] using ih acc h
    · refine ih _ ?_
      simp [List.nodup_append, h, hm]

/-- Size of the distinct route id list against the pairwise property. -/
theorem distinctRouteIDs_le_one_iff (segs : List segment) :
    (distinctRouteIDs segs).length ≤ 1 ↔
      ∀ a ∈ segs, ∀ b ∈ segs, a.routeID = b.routeID := by
  have hmem : ∀ x, x ∈ distinctRouteIDs segs ↔ ∃ s ∈ segs, s.routeID = x := by
    intro x
    simpa using mem_routeAcc segs [] x
  have hnd : (distinctRouteIDs segs).Nodup := nodup_routeAcc segs [] List.nodup_nil
  constructor
  · intro hlen a ha b hb
    have hA : a.routeID ∈ distinctRouteIDs segs := (hmem _).2 ⟨a, ha, rfl⟩
    have hB : b.routeID ∈ distinctRouteIDs segs := (hmem _).2 ⟨b, hb, rfl⟩
    match hd : distinctRouteIDs segs with
    | [] => rw [hd] at hA; cases hA
    | [x] =>
      rw [hd] at hA hB
      simp only [List.mem_singleton] at hA hB
      rw [hA, hB]
    | x :: y :: zs =>
      rw [hd] at hlen
      simp at hlen
  · intro hall
    by_contra hlen
    push_neg at hlen
    match hd : distinctRouteIDs segs with
    | [] => rw [hd] at hlen; simp at hlen
    | [x] => rw [hd] at hlen; simp at hlen
    | x :: y :: zs =>
      have hx : x ∈ distinctRouteIDs segs := by rw [hd]; simp
      have hy : y ∈ distinctRouteIDs segs := by rw [hd]; simp
      obtain ⟨sx, hsx, hsx2⟩ := (hmem x).1 hx
      obtain ⟨sy, hsy, hsy2⟩ := (hmem y).1 hy
      have : x = y := by rw [← hsx2, ← hsy2]; exact hall sx hsx sy hsy
      rw [hd] at hnd
      exact (List.nodup_cons.1 hnd).1 (this ▸ List.mem_cons_self y zs)

/-- Claim C6: start discovery returns exactly the filtered set when all
matches share one route id, and fails (returning no segment set at all)
when the matches span more than one route id. -/
theorem c6_start_route_ambiguity (st : Store) (preq : processingRequest) :
    if ∀ a ∈ filterSegmentsGo st (startFilter preq),
        ∀ b ∈ filterSegmentsGo st (startFilter preq), a.routeID = b.routeID then
      startDiscoveryGo st preq = .ok (filterSegmentsGo st (startFilter preq))
    else (startDiscoveryGo st preq).toOption = none := by
  by_cases h : ∀ a ∈ filterSegmentsGo st (startFilter preq),
      ∀ b ∈ filterSegmentsGo st (startFilter preq), a.routeID = b.routeID
  · rw [if_pos h]
    have hle := (distinctRouteIDs_le_one_iff (filterSegmentsGo st (startFilter preq))).2 h
    unfold startDiscoveryGo
    rw [if_neg (by omega)]
  · rw [if_neg h]
    have hgt : (distinctRouteIDs (filterSegmentsGo st (startFilter preq))).length > 1 := by
      by_contra hle
      exact h ((distinctRouteIDs_le_one_iff _).1 (by omega))
    unfold startDiscoveryGo
    rw [if_pos hgt]
    rfl

/-- The ASCII space character. -/
def spaceChar : Char := Char.ofNat 32

/-- Splitting a character list around a distinguished separator character
is unambiguous when neither target half contains the separator. -/
theorem middleCharSplit (c : Char) :
    ∀ (a c1 b d1 : List Char), (∀ x ∈ c1, x ≠ c) → (∀ x ∈ d1, x ≠ c) →
      a ++ c :: b = c1 ++ c :: d1 → a = c1 ∧ b = d1 := by
  intro a
  induction a with
  | nil =>
    intro c1 b d1 h1 h2 heq
    match c1 with
    | [] =>
      simp only [List.nil_append] at heq
      exact ⟨rfl, (List.cons.injEq _ _ _ _ ▸ heq).2⟩
    | y :: c1x =>
      simp only [List.nil_append, List.cons_append, List.cons.injEq] at heq
      exact absurd heq.1.symm (h1 y (List.mem_cons_self y c1x))
  | cons x ax ih =>
    intro c1 b d1 h1 h2 heq
    match c1 with
    | [] =>
      simp only [List.nil_append, List.cons_append, List.cons.injEq] at heq
      exfalso
      refine h2 c ?_ rfl
      rw [← heq.2]
      exact List.mem_append_right ax (List.mem_cons_self c b)
    | y :: c1x =>
      simp only [List.cons_append, List.cons.injEq] at heq
      obtain ⟨hx, hrest⟩ := heq
      have := ih c1x b d1 (fun z hz => h1 z (List.mem_cons_of_mem y hz)) h2 hrest
      exact ⟨by rw [hx, this.1], this.2⟩

/-- Equality of strings is equality of their character data. -/
theorem stringEqIffData (s t : String) : s = t ↔ s.data = t.data := by
  constructor
  · intro h; rw [h]
  · intro h; cases s; cases t; exact congrArg String.mk h

/-- Character data of an appended string. -/
theorem dataOfAppend (s t : String) : (s ++ t).data = s.data ++ t.data := by
  cases s; cases t; rfl

/-- Concatenating two direction strings around a space hits a given
space-free pair of literals exactly when the components match. -/
theorem keyPairIff (d1 d2 s1 s2 : String)
    (h1 : ∀ x ∈ s1.data, x ≠ spaceChar) (h2 : ∀ x ∈ s2.data, x ≠ spaceChar) :
    d1 ++ " " ++ d2 = s1 ++ " " ++ s2 ↔ (d1 = s1 ∧ d2 = s2) := by
  have hsp : (" " : String).data = [spaceChar] := by decide
  constructor
  · intro h
    rw [stringEqIffData] at h
    rw [dataOfAppend, dataOfAppend, dataOfAppend, dataOfAppend, hsp] at h
    simp only [List.append_assoc, List.singleton_append] at h
    have := middleCharSplit spaceChar d1.data s1.data d2.data s2.data h1 h2 h
    exact ⟨(stringEqIffData _ _).2 this.1, (stringEqIffData _ _).2 this.2⟩
  · rintro ⟨ha, hb⟩
    rw [ha, hb]

/-- toOption of a mapped Except result. -/
theorem exceptMapToOption {e a b : Type} (f : a → b) (x : Except e a) :
    (x.map f).toOption = x.toOption.map f := by
  cases x <;> rfl

/-- Bridge from a concatenated direction pair to a literal key of the
switch. -/
theorem keyLit (d1 d2 s1 s2 lit : String)
    (h1 : ∀ x ∈ s1.data, x ≠ spaceChar) (h2 : ∀ x ∈ s2.data, x ≠ spaceChar)
    (hlit : s1 ++ " " ++ s2 = lit) :
    d1 ++ " " ++ d2 = lit ↔ (d1 = s1 ∧ d2 = s2) := by
  rw [← hlit]; exact keyPairIff d1 d2 s1 s2 h1 h2

/-- Stepping matchesGo over a distinct-id segment whose direction pair is
outside the table aborts with the unknown-pair error. -/
theorem matchesGo_cons_unknown (dist : Dist) (cur next : segment) (rest : List segment)
    (hid : ¬ cur.id = next.id) (hk : (cur.direction, next.direction) ∉ knownPairs) :
    matchesGo dist (next :: rest) cur = .error (unknownPairMsg cur next) := by
  have mk : ∀ s1 s2 : String, cur.direction = s1 → next.direction = s2 →
      (s1, s2) ∈ knownPairs → False := by
    rintro s1 s2 e1 e2 hm; exact hk (by rw [e1, e2]; exact hm)
  have k1 := keyLit cur.direction next.direction "BOTH" "BOTH" "BOTH BOTH"
    (by decide) (by decide) (by decide)
  have k2 := keyLit cur.direction next.direction "BOTH" "FOTD" "BOTH FOTD"
    (by decide) (by decide) (by decide)
  have k3 := keyLit cur.direction next.direction "BOTH" "FDTO" "BOTH FDTO"
    (by decide) (by decide) (by decide)
  have k4 := keyLit cur.direction next.direction "FOTD" "FOTD" "FOTD FOTD"
    (by decide) (by decide) (by decide)
  have k5 := keyLit cur.direction next.direction "FOTD" "BOTH" "FOTD BOTH"
    (by decide) (by decide) (by decide)
  have k6 := keyLit cur.direction next.direction "FDTO" "BOTH" "FDTO BOTH"
    (by decide) (by decide) (by decide)
  unfold matchesGo
  rw [if_neg hid,
    if_neg (fun h => mk _ _ (k1.1 h).1 (k1.1 h).2 (by decide)),
    if_neg (fun h => mk _ _ (k2.1 h).1 (k2.1 h).2 (by decide)),
    if_neg (fun h => mk _ _ (k3.1 h).1 (k3.1 h).2 (by decide)),
    if_neg (fun h => mk _ _ (k4.1 h).1 (k4.1 h).2 (by decide)),
    if_neg (fun h => mk _ _ (k5.1 h).1 (k5.1 h).2 (by decide)),
    if_neg (fun h => mk _ _ (k6.1 h).1 (k6.1 h).2 (by decide))]

/-- Stepping matchesGo over a distinct-id segment whose direction pair is
in the table emits an edge exactly when the spec table allows one. -/
theorem matchesGo_cons_known (dist : Dist) (cur next : segment) (rest : List segment)
    (hid : ¬ cur.id = next.id) (hk : (cur.direction, next.direction) ∈ knownPairs) :
    matchesGo dist (next :: rest) cur =
      if specEdgeAllowed dist cur next then (matchesGo dist rest cur).map (fun out => next :: out)
      else matchesGo dist rest cur := by
  simp only [knownPairs, List.mem_cons, List.mem_singleton, Prod.mk.injEq,
    List.not_mem_nil, or_false] at hk
  rw [matchesGo]
  rw [if_neg hid]
  rcases hk with ⟨hc, hn⟩ | ⟨hc, hn⟩ | ⟨hc, hn⟩ | ⟨hc, hn⟩ | ⟨hc, hn⟩ | ⟨hc, hn⟩ <;>
    simp [specEdgeAllowed, hc, hn]

/-- Stepping matchesGo over the probe segment itself skips it. -/
theorem matchesGo_cons_skip (dist : Dist) (cur next : segment) (rest : List segment)
    (hid : cur.id = next.id) :
    matchesGo dist (next :: rest) cur = matchesGo dist rest cur := by
  rw [matchesGo, if_pos hid]

/-- Claim C1: for the segments of a route and a probe segment cur, the
adjacency builder emits a directed edge cur to next for exactly the
distinct-id segments the spec directionality-pair table allows (with
proximity meaning distance below the fixed threshold), and the moment
some distinct-id pairing falls outside the six enumerated direction
pairs it fails with an error and emits no edges at all. -/
theorem c1_adjacency_table (dist : Dist) (segs : List segment) (cur : segment) :
    (matchesGo dist segs cur).toOption =
      if segs.all (fun next =>
          decide (cur.id = next.id) || decide ((cur.direction, next.direction) ∈ knownPairs)) then
        some (segs.filter (fun next => decide (cur.id ≠ next.id) && specEdgeAllowed dist cur next))
      else none := by
  induction segs with
  | nil => rfl
  | cons next rest ih =>
    by_cases hid : cur.id = next.id
    · rw [matchesGo_cons_skip dist cur next rest hid, ih]
      simp [List.all_cons, List.filter_cons, hid]
    · by_cases hk : (cur.direction, next.direction) ∈ knownPairs
      · rw [matchesGo_cons_known dist cur next rest hid hk]
        by_cases hcl : specEdgeAllowed dist cur next = true
        · rw [if_pos hcl, exceptMapToOption, ih]
          by_cases hall : rest.all (fun nx =>
              decide (cur.id = nx.id) || decide ((cur.direction, nx.direction) ∈ knownPairs)) = true
          · simp [List.all_cons, List.filter_cons, hid, hk, hcl, hall]
          · simp [List.all_cons, List.filter_cons, hid, hk, hcl, hall]
        · rw [if_neg hcl, ih]
          simp [List.all_cons, List.filter_cons, hid, hk, hcl]
      · rw [matchesGo_cons_unknown dist cur next rest hid hk]
        simp only [List.all_cons, decide_eq_true_eq]
        rw [if_neg (by simp [hid, hk])]
        rfl

/-- A queue path of the BFS: nonempty, starts at the seed, simple, and
following forward edges. -/
def SeedPath (links : List (Int × Int)) (seed : Int) (p : List Int) : Prop :=
  p ≠ [] ∧ p.head? = some seed ∧ p.Nodup ∧ List.Chain' (fun a b => b ∈ adjOf links a) p

/-- A simple path from the seed ending at some end id. -/
def GTarget (links : List (Int × Int)) (seed : Int) (toIDs : List Int) (s : List Int) : Prop :=
  SeedPath links seed s ∧ s.getLastD 0 ∈ toIDs

/-- No element before the last one is an end id. -/
def NoEarly (toIDs : List Int) (s : List Int) : Prop :=
  ∀ i : Nat, i + 1 < s.length → s.getD i 0 ∉ toIDs

/-- Loop invariant of the BFS queue: entries are seed paths, their
lengths are sorted and within one of each other, and every minimal
target path extends some queue entry. -/
def BfsInv (links : List (Int × Int)) (seed : Int) (toIDs : List Int)
    (q : List (List Int)) : Prop :=
  (∀ x ∈ q, SeedPath links seed x) ∧
  q.Pairwise (fun a b => a.length ≤ b.length) ∧
  (∀ a ∈ q, ∀ b ∈ q, a.length ≤ b.length + 1) ∧
  (∀ s, GTarget links seed toIDs s → NoEarly toIDs s → ∃ x ∈ q, ∃ t2, x ++ t2 = s)

/-- gBound is always positive. -/
theorem gBound_pos (b m : Nat) : 1 ≤ gBound b m := by
  cases m with
  | zero => exact Nat.le_refl 1
  | succ m => simp [gBound]

/-- gBound grows with its second argument. -/
theorem gBound_mono (b : Nat) {m n : Nat} (h : m ≤ n) : gBound b m ≤ gBound b n := by
  induction n with
  | zero => simp [Nat.le_zero.1 h]
  | succ n ih =>
    rcases Nat.lt_or_ge m (n + 1) with hlt | hge
    · refine le_trans (ih (Nat.lt_succ_iff.1 hlt)) ?_
      show gBound b n ≤ 1 + b * gBound b n
      cases b with
      | zero => simp [show ∀ k, gBound 0 k = 1 from fun k => by induction k with
          | zero => rfl
          | succ k ihk => simp [gBound, ihk]]
      | succ b2 =>
        have : gBound (b2 + 1) n ≤ (b2 + 1) * gBound (b2 + 1) n :=
          Nat.le_mul_of_pos_left _ (Nat.succ_pos b2)
        omega
    · have : m = n + 1 := Nat.le_antisymm h hge
      rw [this]

/-- Removing a present element with a filter strictly shrinks a list. -/
theorem filter_ne_length_lt (l : List Int) (a : Int) (ha : a ∈ l) :
    (l.filter (fun x => decide (x ≠ a))).length < l.length := by
  induction l with
  | nil => cases ha
  | cons x xs ih =>
    by_cases hx : x = a
    · subst hx
      have : (x :: xs).filter (fun y => decide (y ≠ x)) = xs.filter (fun y => decide (y ≠ x)) := by
        simp [List.filter_cons]
      rw [this]
      have := List.length_filter_le (fun y => decide (y ≠ x)) xs
      simp only [List.length_cons]
      omega
    · rcases List.mem_cons.1 ha with h1 | h1
      · exact absurd h1.symm hx
      · have := ih h1
        simp only [List.filter_cons, decide_eq_true_eq]
        rw [if_pos hx]
        simp only [List.length_cons]
        omega

/-- Members of an adjacency list are second components of link rows. -/
theorem adjOf_subset_snd (links : List (Int × Int)) (i x : Int) (h : x ∈ adjOf links i) :
    x ∈ links.map Prod.snd := by
  unfold adjOf at h
  obtain ⟨l, hl, rfl⟩ := List.mem_map.1 h
  exact List.mem_map.2 ⟨l, (List.mem_filter.1 hl).1, rfl⟩

/-- Extending a path by a fresh reachable id strictly shrinks remCount. -/
theorem remCount_append_lt (links : List (Int × Int)) (p : List Int) (nid : Int)
    (hmem : nid ∈ links.map Prod.snd) (hnp : nid ∉ p) :
    remCount links (p ++ [nid]) < remCount links p := by
  unfold remCount
  have hpt : ∀ x : Int, decide (x ∉ p ++ [nid]) = (decide (x ∉ p) && decide (x ≠ nid)) := by
    intro x
    by_cases h1 : x ∈ p <;> by_cases h2 : x = nid <;>
      simp [List.mem_append, h1, h2]
  have hsplit : ((links.map Prod.snd).dedup).filter (fun x => decide (x ∉ p ++ [nid])) =
      (((links.map Prod.snd).dedup).filter (fun x => decide (x ∉ p))).filter
        (fun x => decide (x ≠ nid)) := by
    rw [List.filter_filter]
    apply List.filter_congr
    intro x _
    rw [hpt x, Bool.and_comm]
  rw [hsplit]
  refine filter_ne_length_lt _ nid ?_
  exact List.mem_filter.2 ⟨List.mem_dedup.2 hmem, by simpa using hnp⟩

/-- Cardinal form of bfsMeasure over an append. -/
theorem bfsMeasure_append (links : List (Int × Int)) (q1 q2 : List (List Int)) :
    bfsMeasure links (q1 ++ q2) = bfsMeasure links q1 + bfsMeasure links q2 := by
  unfold bfsMeasure
  rw [List.map_append, List.sum_append]

/-- bfsMeasure over a cons. -/
theorem bfsMeasure_cons (links : List (Int × Int)) (p : List Int) (q : List (List Int)) :
    bfsMeasure links (p :: q) =
      gBound links.length (remCount links p) + bfsMeasure links q := by
  unfold bfsMeasure
  rw [List.map_cons, List.sum_cons]

/-- Membership in the children of a popped path. -/
theorem mem_childrenOf (links : List (Int × Int)) (p c : List Int) :
    c ∈ childrenOf links p ↔
      ∃ nid, nid ∈ adjOf links (p.getLastD 0) ∧ nid ∉ p ∧ c = p ++ [nid] := by
  unfold childrenOf
  constructor
  · intro h
    obtain ⟨nid, hn, rfl⟩ := List.mem_map.1 h
    have := List.mem_filter.1 hn
    exact ⟨nid, this.1, by simpa using this.2, rfl⟩
  · rintro ⟨nid, h1, h2, rfl⟩
    exact List.mem_map.2 ⟨nid, List.mem_filter.2 ⟨h1, by simpa using h2⟩, rfl⟩

/-- The number of children of one path is bounded by the link count. -/
theorem childrenOf_length_le (links : List (Int × Int)) (p : List Int) :
    (childrenOf links p).length ≤ links.length := by
  unfold childrenOf adjOf
  rw [List.length_map]
  refine le_trans (List.length_filter_le _ _) ?_
  rw [List.length_map]
  exact List.length_filter_le _ _

/-- Popping a path and pushing its children strictly decreases the BFS
fuel measure. -/
theorem measure_step (links : List (Int × Int)) (p : List Int) (rest : List (List Int)) :
    bfsMeasure links (rest ++ childrenOf links p) < bfsMeasure links (p :: rest) := by
  rw [bfsMeasure_append, bfsMeasure_cons]
  have hkey : bfsMeasure links (childrenOf links p) < gBound links.length (remCount links p) := by
    by_cases hch : childrenOf links p = []
    · rw [hch]
      show 0 < gBound links.length (remCount links p)
      have := gBound_pos links.length (remCount links p)
      omega
    · obtain ⟨c0, hc0⟩ := List.exists_mem_of_ne_nil _ hch
      obtain ⟨nid0, hn0adj, hn0p, rfl⟩ := (mem_childrenOf links p c0).1 hc0
      have h1 : remCount links (p ++ [nid0]) < remCount links p :=
        remCount_append_lt links p nid0 (adjOf_subset_snd links _ nid0 hn0adj) hn0p
      obtain ⟨m, hm⟩ : ∃ m, remCount links p = m + 1 := ⟨remCount links p - 1, by omega⟩
      have hbound : ∀ x ∈ (childrenOf links p).map
          (fun c => gBound links.length (remCount links c)), x ≤ gBound links.length m := by
        intro x hx
        obtain ⟨c, hc, rfl⟩ := List.mem_map.1 hx
        obtain ⟨nid, hna, hnp, rfl⟩ := (mem_childrenOf links p c).1 hc
        have := remCount_append_lt links p nid (adjOf_subset_snd links _ nid hna) hnp
        exact gBound_mono links.length (by omega)
      have hsum : bfsMeasure links (childrenOf links p) ≤
          (childrenOf links p).length * gBound links.length m := by
        have := List.sum_le_card_nsmul ((childrenOf links p).map
          (fun c => gBound links.length (remCount links c))) (gBound links.length m) hbound
        simpa [bfsMeasure, List.length_map, smul_eq_mul] using this
      have hlen := childrenOf_length_le links p
      have : bfsMeasure links (childrenOf links p) ≤ links.length * gBound links.length m :=
        le_trans hsum (Nat.mul_le_mul_right _ hlen)
      rw [hm]
      show bfsMeasure links (childrenOf links p) < 1 + links.length * gBound links.length m
      omega
  omega

/-- Extending a seed path along a fresh forward edge keeps it a
seed path. -/
theorem seedPath_append (links : List (Int × Int)) (seed : Int) (p : List Int) (nid : Int)
    (hp : SeedPath links seed p) (hadj : nid ∈ adjOf links (p.getLastD 0)) (hnp : nid ∉ p) :
    SeedPath links seed (p ++ [nid]) := by
  obtain ⟨hne, hhead, hnd, hch⟩ := hp
  obtain ⟨a, p2, rfl⟩ : ∃ a p2, p = a :: p2 := by
    cases p with
    | nil => exact absurd rfl hne
    | cons a p2 => exact ⟨a, p2, rfl⟩
  refine ⟨by simp, by simpa using hhead, ?_, ?_⟩
  · rw [List.nodup_append]
    exact ⟨hnd, List.nodup_singleton nid, by simpa [List.disjoint_singleton] using hnp⟩
  · rw [List.chain'_append]
    refine ⟨hch, List.chain'_singleton nid, ?_⟩
    intro x hx y hy
    simp only [List.head?_cons, Option.mem_def, Option.some.injEq] at hy
    have hlast : (a :: p2).getLast? = some ((a :: p2).getLastD 0) := by
      rw [List.getLastD_eq_getLast?]
      cases hg : (a :: p2).getLast? with
      | none => exact absurd hg (by simp)
      | some v => rfl
    rw [hlast] at hx
    simp only [Option.mem_def, Option.some.injEq] at hx
    rw [← hy, ← hx]
    exact hadj

/-- Pairwise holds when the relation holds for all mapped pairs. -/
theorem pairwise_map_of_forall {α β : Type} (R : β → β → Prop) (f : α → β) (l : List α)
    (h : ∀ a b : α, R (f a) (f b)) : (l.map f).Pairwise R := by
  induction l with
  | nil => exact List.Pairwise.nil
  | cons a t ih =>
    rw [List.map_cons]
    exact List.Pairwise.cons (fun b _ => by
      obtain ⟨c, _, rfl⟩ := List.mem_map.1 (by assumption)
      exact h a c) ih

/-- All children of one path share length p.length + 1. -/
theorem childrenOf_length_eq (links : List (Int × Int)) (p c : List Int)
    (hc : c ∈ childrenOf links p) : c.length = p.length + 1 := by
  obtain ⟨nid, _, _, rfl⟩ := (mem_childrenOf links p c).1 hc
  simp

/-- One BFS step preserves the queue invariant. -/
theorem bfs_inv_step (links : List (Int × Int)) (seed : Int) (toIDs : List Int)
    (p0 : List Int) (rest : List (List Int))
    (hinv : BfsInv links seed toIDs (p0 :: rest)) (hnf : p0.getLastD 0 ∉ toIDs) :
    BfsInv links seed toIDs (rest ++ childrenOf links p0) := by
  obtain ⟨hsp, hpw, hbd, hrep⟩ := hinv
  have hp0 : SeedPath links seed p0 := hsp p0 (List.mem_cons_self p0 rest)
  have hpwrest : rest.Pairwise (fun a b => a.length ≤ b.length) := (List.pairwise_cons.1 hpw).2
  have hp0le : ∀ b ∈ rest, p0.length ≤ b.length := (List.pairwise_cons.1 hpw).1
  refine ⟨?_, ?_, ?_, ?_⟩
  · intro x hx
    rcases List.mem_append.1 hx with hx | hx
    · exact hsp x (List.mem_cons_of_mem p0 hx)
    · obtain ⟨nid, hadj, hnp, rfl⟩ := (mem_childrenOf links p0 x).1 hx
      exact seedPath_append links seed p0 nid hp0 hadj hnp
  · rw [List.pairwise_append]
    refine ⟨hpwrest, ?_, ?_⟩
    · unfold childrenOf
      exact pairwise_map_of_forall _ _ _ (fun a b => by simp)
    · intro a ha b hb
      have hb1 := childrenOf_length_eq links p0 b hb
      have := hbd a (List.mem_cons_of_mem p0 ha) p0 (List.mem_cons_self p0 rest)
      omega
  · intro a ha b hb
    rcases List.mem_append.1 ha with ha2 | ha2 <;> rcases List.mem_append.1 hb with hb2 | hb2
    · exact hbd a (List.mem_cons_of_mem p0 ha2) b (List.mem_cons_of_mem p0 hb2)
    · have hb1 := childrenOf_length_eq links p0 b hb2
      have := hbd a (List.mem_cons_of_mem p0 ha2) p0 (List.mem_cons_self p0 rest)
      omega
    · have ha1 := childrenOf_length_eq links p0 a ha2
      have := hp0le b hb2
      omega
    · have ha1 := childrenOf_length_eq links p0 a ha2
      have hb1 := childrenOf_length_eq links p0 b hb2
      omega
  · intro s hts hne
    obtain ⟨x, hx, t2, hxe⟩ := hrep s hts hne
    rcases List.mem_cons.1 hx with rfl | hx2
    · cases t2 with
      | nil =>
        exfalso
        rw [List.append_nil] at hxe
        rw [hxe] at hnf
        exact hnf hts.2
      | cons n t3 =>
        have hchain := hts.1.2.2.2
        rw [← hxe, List.chain'_append] at hchain
        have hp0ne : x ≠ [] := hp0.1
        have hlast : x.getLast? = some (x.getLastD 0) := by
          rw [List.getLastD_eq_getLast?]
          cases hg : x.getLast? with
          | none => exact absurd (List.getLast?_eq_none_iff.1 hg) hp0ne
          | some v => rfl
        have hadj : n ∈ adjOf links (x.getLastD 0) := by
          have := hchain.2.2 (x.getLastD 0) (by rw [hlast]; rfl) n (by rfl)
          exact this
        have hnp : n ∉ x := by
          have hnd := hts.1.2.2.1
          rw [← hxe] at hnd
          have := (List.nodup_append.1 hnd).2.2
          intro hcon
          exact this hcon (List.mem_cons_self n t3)
        refine ⟨x ++ [n], List.mem_append_right rest
          ((mem_childrenOf links x (x ++ [n])).2 ⟨n, hadj, hnp, rfl⟩), t3, ?_⟩
        rw [← hxe]
        simp
    · exact ⟨x, List.mem_append_left _ hx2, t2, hxe⟩

/-- Master lemma about the fuel-indexed BFS loop: under the queue
invariant, a returned path is a seed path ending at an end id whose
length is minimal among minimal target paths; and with sufficient fuel,
returning none refutes every minimal target path. -/
theorem bfs_master (links : List (Int × Int)) (seed : Int) (toIDs : List Int) :
    ∀ (fuel : Nat) (q : List (List Int)), BfsInv links seed toIDs q →
      (∀ p, bfsFuel links toIDs fuel q = some p →
        SeedPath links seed p ∧ p.getLastD 0 ∈ toIDs ∧
        ∀ s, GTarget links seed toIDs s → NoEarly toIDs s → p.length ≤ s.length) ∧
      (bfsMeasure links q ≤ fuel → bfsFuel links toIDs fuel q = none →
        ∀ s, GTarget links seed toIDs s → NoEarly toIDs s → False) := by
  intro fuel
  induction fuel with
  | zero =>
    intro q hinv
    constructor
    · intro p hp
      simp [bfsFuel] at hp
    · intro hm _ s hs hne
      obtain ⟨x, hx, t2, ht⟩ := hinv.2.2.2 s hs hne
      cases q with
      | nil => cases hx
      | cons p0 rest =>
        rw [bfsMeasure_cons] at hm
        have := gBound_pos links.length (remCount links p0)
        omega
  | succ fuel ih =>
    intro q hinv
    cases q with
    | nil =>
      constructor
      · intro p hp
        simp [bfsFuel] at hp
      · intro _ _ s hs hne
        obtain ⟨x, hx, _, _⟩ := hinv.2.2.2 s hs hne
        cases hx
    | cons p0 rest =>
      by_cases hfound : p0.getLastD 0 ∈ toIDs
      · have hstep : bfsFuel links toIDs (fuel + 1) (p0 :: rest) = some p0 := by
          rw [bfsFuel, if_pos hfound]
        constructor
        · intro p hp
          rw [hstep] at hp
          cases hp
          refine ⟨hinv.1 p0 (List.mem_cons_self p0 rest), hfound, ?_⟩
          intro s hs hne
          obtain ⟨x, hx, t2, ht⟩ := hinv.2.2.2 s hs hne
          have h1 : p0.length ≤ x.length := by
            rcases List.mem_cons.1 hx with rfl | hx2
            · exact le_refl _
            · exact (List.pairwise_cons.1 hinv.2.1).1 x hx2
          have h2 : x.length ≤ s.length := by
            rw [← ht, List.length_append]
            omega
          omega
        · intro _ hnone
          rw [hstep] at hnone
          cases hnone
      · have hstep : bfsFuel links toIDs (fuel + 1) (p0 :: rest) =
            bfsFuel links toIDs fuel (rest ++ childrenOf links p0) := by
          rw [bfsFuel, if_neg hfound]
        have hinv2 := bfs_inv_step links seed toIDs p0 rest hinv hfound
        constructor
        · intro p hp
          rw [hstep] at hp
          exact (ih _ hinv2).1 p hp
        · intro hm hnone s hs hne
          rw [hstep] at hnone
          have hm2 : bfsMeasure links (rest ++ childrenOf links p0) ≤ fuel := by
            have := measure_step links p0 rest
            omega
          exact (ih _ hinv2).2 hm2 hnone s hs hne

/-- The singleton seed queue satisfies the invariant. -/
theorem bfs_inv_seed (links : List (Int × Int)) (seed : Int) (toIDs : List Int) :
    BfsInv links seed toIDs [[seed]] := by
  refine ⟨?_, ?_, ?_, ?_⟩
  · intro x hx
    rcases List.mem_singleton.1 hx with rfl
    exact ⟨by simp, rfl, List.nodup_singleton seed, List.chain'_singleton seed⟩
  · exact List.pairwise_singleton _ _
  · intro a ha b hb
    rcases List.mem_singleton.1 ha with rfl
    rcases List.mem_singleton.1 hb with rfl
    omega
  · intro s hs _
    obtain ⟨a, t, rfl⟩ : ∃ a t, s = a :: t := by
      cases s with
      | nil => exact absurd rfl hs.1.1
      | cons a t => exact ⟨a, t, rfl⟩
    have : a = seed := by
      have := hs.1.2.1
      simpa using this
    exact ⟨[seed], List.mem_singleton_self _, t, by rw [this]; rfl⟩

/-- Every target path has a minimal truncation that is still a target
path of no greater length. -/
theorem gtarget_reduce (links : List (Int × Int)) (seed : Int) (toIDs : List Int)
    (s : List Int) (h : GTarget links seed toIDs s) :
    ∃ s2, GTarget links seed toIDs s2 ∧ NoEarly toIDs s2 ∧ s2.length ≤ s.length := by
  classical
  obtain ⟨hne, hhead, hnd, hch⟩ := h.1
  have hlen1 : 1 ≤ s.length := by
    cases s with
    | nil => exact absurd rfl hne
    | cons a t => simp
  have hex : ∃ k, k < s.length ∧ s.getD k 0 ∈ toIDs := by
    refine ⟨s.length - 1, by omega, ?_⟩
    have : s.getD (s.length - 1) 0 = s.getLastD 0 := by
      rw [List.getLastD_eq_getLast?, List.getLast?_eq_get?, List.getD_eq_getD_get?]
    rw [this]
    exact h.2
  set k0 := Nat.find hex with hk0
  have hk1 : k0 < s.length := (Nat.find_spec hex).1
  have hk2 : s.getD k0 0 ∈ toIDs := (Nat.find_spec hex).2
  have hkmin : ∀ m, m < k0 → ¬(m < s.length ∧ s.getD m 0 ∈ toIDs) :=
    fun m hm => Nat.find_min hex hm
  have hlen2 : (s.take (k0 + 1)).length = k0 + 1 := by
    rw [List.length_take]
    omega
  have hget : ∀ i, i < k0 + 1 → (s.take (k0 + 1)).getD i 0 = s.getD i 0 := by
    intro i hi
    rw [List.getD_eq_getD_get?, List.getD_eq_getD_get?, List.get?_take hi]
  have htake_last : (s.take (k0 + 1)).getLastD 0 = s.getD k0 0 := by
    rw [List.getLastD_eq_getLast?, List.getLast?_eq_get?, hlen2]
    simp only [Nat.add_sub_cancel]
    rw [← List.getD_eq_getD_get?, hget k0 (by omega)]
  refine ⟨s.take (k0 + 1), ⟨⟨?_, ?_, ?_, ?_⟩, ?_⟩, ?_, ?_⟩
  · intro hcon
    have := congrArg List.length hcon
    rw [hlen2] at this
    simp at this
  · obtain ⟨a, t, rfl⟩ : ∃ a t, s = a :: t := by
      cases s with
      | nil => exact absurd rfl hne
      | cons a t => exact ⟨a, t, rfl⟩
    rw [List.take_succ_cons]
    simpa using hhead
  · exact (List.take_sublist _ _).nodup hnd
  · have := hch
    conv at this => rw [← List.take_append_drop (k0 + 1) s]
    exact (List.chain'_append.1 this).1
  · rw [htake_last]
    exact hk2
  · intro i hi
    rw [hlen2] at hi
    rw [hget i (by omega)]
    intro hcon
    exact hkmin i (by omega) ⟨by omega, hcon⟩
  · rw [hlen2]
    omega

/-- Soundness, minimality and completeness of bfsGo. -/
theorem bfsGo_spec (links : List (Int × Int)) (toIDs : List Int) (seed : Int) :
    (∀ p, bfsGo links toIDs seed = some p →
      SeedPath links seed p ∧ p.getLastD 0 ∈ toIDs ∧
      ∀ s, GTarget links seed toIDs s → p.length ≤ s.length) ∧
    (bfsGo links toIDs seed = none → ∀ s, GTarget links seed toIDs s → False) := by
  have hm := bfs_master links seed toIDs (bfsMeasure links [[seed]]) [[seed]]
    (bfs_inv_seed links seed toIDs)
  constructor
  · intro p hp
    obtain ⟨h1, h2, h3⟩ := hm.1 p hp
    refine ⟨h1, h2, ?_⟩
    intro s hs
    obtain ⟨s2, hs2, hne2, hle2⟩ := gtarget_reduce links seed toIDs s hs
    exact le_trans (h3 s2 hs2 hne2) hle2
  · intro hnone s hs
    obtain ⟨s2, hs2, hne2, _⟩ := gtarget_reduce links seed toIDs s hs
    exact hm.2 (le_refl _) hnone s2 hs2 hne2

/-- A simple path of the route graph of the first from candidate, from
its id to the id of some to candidate. -/
def TargetPath (st : Store) (f0 : segment) (toSegments : List segment) (s : List Int) : Prop :=
  GTarget (routeLinksOf st f0) f0.id (toSegments.map (fun t => t.id)) s

/-- Destructor for a successful routeGo call: the BFS found an id path,
enough rows came back, and the result is the fetch of that path. -/
theorem routeGo_ok_elim (st : Store) (f0 : segment) (fs ts : List segment) (p : List segment)
    (hok : routeGo st (f0 :: fs) ts = .ok p) :
    ts ≠ [] ∧
    ∃ idp, bfsGo (routeLinksOf st f0) (ts.map (fun s => s.id)) f0.id = some idp ∧
      ¬ ((st.segments.filter (fun s => decide (s.id ∈ idp))).length < idp.length) ∧
      p = fetchGo idp (st.segments.filter (fun s => decide (s.id ∈ idp))) := by
  cases ts with
  | nil => exact absurd hok (by simp [routeGo])
  | cons t0 ts2 =>
    refine ⟨by simp, ?_⟩
    rw [routeGo] at hok
    split at hok
    · cases hok
    · split at hok
      · cases hok
      · split at hok
        · cases hok
        · rename_i idp hbfs hlt
          exact ⟨idp, hbfs, hlt, by cases hok; rfl⟩

/-- find? on a list with duplicate-free ids locates a member by its id. -/
theorem find_eq_of_nodup_ids (l : List segment) (hl : (l.map (fun s => s.id)).Nodup)
    (u : segment) (hu : u ∈ l) :
    l.find? (fun s => decide (s.id = u.id)) = some u := by
  induction l with
  | nil => cases hu
  | cons a t ih =>
    rw [List.map_cons, List.nodup_cons] at hl
    rcases List.mem_cons.1 hu with rfl | hu2
    · rw [List.find?_cons_of_pos _ (by simp)]
    · have hne : ¬ (a.id = u.id) := by
        intro hcon
        exact hl.1 (hcon ▸ List.mem_map.2 ⟨u, hu2, rfl⟩)
      rw [List.find?_cons_of_neg _ (by simpa using hne)]
      exact ih hl.2 hu2

/-- Segments with one id coincide in a store with duplicate-free ids. -/
theorem seg_id_inj (st : Store) (hids : (st.segments.map (fun s => s.id)).Nodup)
    (u v : segment) (hu : u ∈ st.segments) (hv : v ∈ st.segments) (h : u.id = v.id) : u = v := by
  have h1 := find_eq_of_nodup_ids st.segments hids u hu
  have h2 := find_eq_of_nodup_ids st.segments hids v hv
  rw [h] at h1
  rw [h1] at h2
  exact Option.some.injEq _ _ ▸ h2

/-- The reversed fetch lookup also locates a member by its id. -/
theorem revFind_eq (segs : List segment) (hnd : (segs.map (fun s => s.id)).Nodup)
    (u : segment) (hu : u ∈ segs) :
    segs.reverse.find? (fun s => decide (s.id = u.id)) = some u := by
  apply find_eq_of_nodup_ids
  · rw [List.map_reverse]
    exact List.nodup_reverse.2 hnd
  · exact List.mem_reverse.2 hu

/-- The ids of the fetched filter rows are duplicate-free. -/
theorem filter_ids_nodup (st : Store) (idp : List Int)
    (hids : (st.segments.map (fun s => s.id)).Nodup) :
    (((st.segments.filter (fun s => decide (s.id ∈ idp))).map (fun s => s.id))).Nodup :=
  ((List.filter_sublist st.segments).map (fun s => s.id)).nodup hids

/-- At most one row matches each id of a duplicate-free id path. -/
theorem filter_ids_le (st : Store) (idp : List Int)
    (hids : (st.segments.map (fun s => s.id)).Nodup) :
    (st.segments.filter (fun s => decide (s.id ∈ idp))).length ≤ idp.length := by
  have hsub : ((st.segments.filter (fun s => decide (s.id ∈ idp))).map (fun s => s.id)) ⊆ idp := by
    intro x hx
    obtain ⟨u, hu, rfl⟩ := List.mem_map.1 hx
    have := (List.mem_filter.1 hu).2
    simpa using this
  have := ((filter_ids_nodup st idp hids).subperm hsub).length_le
  rw [List.length_map] at this
  exact this

/-- When as many rows as path entries come back, every id of the path is
the id of some fetched row. -/
theorem filter_ids_sur (st : Store) (idp : List Int)
    (hids : (st.segments.map (fun s => s.id)).Nodup)
    (hge : ¬ ((st.segments.filter (fun s => decide (s.id ∈ idp))).length < idp.length)) :
    ∀ i ∈ idp, ∃ u ∈ st.segments.filter (fun s => decide (s.id ∈ idp)), u.id = i := by
  have hsub : ((st.segments.filter (fun s => decide (s.id ∈ idp))).map (fun s => s.id)) ⊆ idp := by
    intro x hx
    obtain ⟨u, hu, rfl⟩ := List.mem_map.1 hx
    have := (List.mem_filter.1 hu).2
    simpa using this
  have hsp := (filter_ids_nodup st idp hids).subperm hsub
  have hperm := hsp.perm_of_length_le (by rw [List.length_map]; omega)
  intro i hi
  have : i ∈ ((st.segments.filter (fun s => decide (s.id ∈ idp))).map (fun s => s.id)) :=
    hperm.mem_iff.2 hi
  obtain ⟨u, hu, he⟩ := List.mem_map.1 this
  exact ⟨u, hu, he⟩

/-- Length of a fetch. -/
theorem fetchGo_length (idp : List Int) (segs : List segment) :
    (fetchGo idp segs).length = idp.length + (segs.length - idp.length) := by
  unfold fetchGo
  rw [List.length_append, List.length_map, List.length_drop]

/-- With exactly as many rows as path entries, a fetch is a pointwise
lookup along the path. -/
theorem fetchGo_eq_map (idp : List Int) (segs : List segment)
    (hlen : idp.length = segs.length) :
    fetchGo idp segs =
      idp.map (fun i => ((segs.reverse.find? (fun s => decide (s.id = i))).getD default)) := by
  unfold fetchGo
  rw [List.drop_eq_nil_of_le (by omega), List.append_nil]

/-- When the seed id is itself an end id, BFS stops immediately. -/
theorem bfsGo_seed_mem (links : List (Int × Int)) (toIDs : List Int) (seed : Int)
    (h : seed ∈ toIDs) : bfsGo links toIDs seed = some [seed] := by
  unfold bfsGo
  have hpos : 1 ≤ bfsMeasure links [[seed]] := by
    rw [bfsMeasure_cons]
    have := gBound_pos links.length (remCount links [seed])
    omega
  obtain ⟨m, hm⟩ : ∃ m, bfsMeasure links [[seed]] = m + 1 :=
    ⟨bfsMeasure links [[seed]] - 1, by omega⟩
  rw [hm, bfsFuel, if_pos (by simpa using h)]

/-- Claim C2: the path finder ignores every from candidate after the
first, a successful result has minimum length among simple paths of the
route graph from the seed id to any end-candidate id, and when no end
candidate is reachable it returns no path, reporting the no-path error
whenever all end candidates passed the graph membership check. -/
theorem c2_path_finder (st : Store) (f0 : segment) (fs ts : List segment)
    (hids : (st.segments.map (fun s => s.id)).Nodup) (hts : ts ≠ []) :
    routeGo st (f0 :: fs) ts = routeGo st [f0] ts ∧
    (∀ p, routeGo st (f0 :: fs) ts = .ok p →
      ∀ s, TargetPath st f0 ts s → p.length ≤ s.length) ∧
    ((¬ ∃ s, TargetPath st f0 ts s) → (routeGo st (f0 :: fs) ts).toOption = none) ∧
    ((¬ ∃ s, TargetPath st f0 ts s) → (∀ t ∈ ts, t.id ∈ graphKeysGo st (f0 :: fs)) →
      routeGo st (f0 :: fs) ts = .error "could not find path") := by
  refine ⟨by cases ts with | nil => rfl | cons a b => rfl, ?_, ?_, ?_⟩
  · intro p hok s hs
    obtain ⟨-, idp, hbfs, hge, hfetch⟩ := routeGo_ok_elim st f0 fs ts p hok
    obtain ⟨hsp, hend, hmin⟩ := (bfsGo_spec (routeLinksOf st f0) (ts.map (fun s => s.id)) f0.id).1 idp hbfs
    have hle := filter_ids_le st idp hids
    have hplen : p.length = idp.length := by
      rw [hfetch, fetchGo_length]
      omega
    rw [hplen]
    exact hmin s hs
  · intro hno
    cases hcase : routeGo st (f0 :: fs) ts with
    | error e => rfl
    | ok p =>
      exfalso
      obtain ⟨-, idp, hbfs, -, -⟩ := routeGo_ok_elim st f0 fs ts p hcase
      obtain ⟨hsp, hend, -⟩ := (bfsGo_spec (routeLinksOf st f0) (ts.map (fun s => s.id)) f0.id).1 idp hbfs
      exact hno ⟨idp, hsp, hend⟩
  · intro hno hkeys
    cases ts with
    | nil => exact absurd rfl hts
    | cons t0 ts2 =>
      have hfind : (t0 :: ts2).find? (fun t => decide (t.id ∉
          f0.id :: ((routeLinksOf st f0).map Prod.fst ++ (routeLinksOf st f0).map Prod.snd))) = none := by
        rw [List.find?_eq_none]
        intro t2 htm2
        have h2 := hkeys t2 htm2
        rw [graphKeysGo] at h2
        simp only [decide_eq_true_eq]
        exact fun hc => hc h2
      have hbfs : bfsGo (routeLinksOf st f0) ((t0 :: ts2).map (fun s => s.id)) f0.id = none := by
        cases hb : bfsGo (routeLinksOf st f0) ((t0 :: ts2).map (fun s => s.id)) f0.id with
        | none => rfl
        | some idp =>
          exfalso
          obtain ⟨hsp, hend, -⟩ :=
            (bfsGo_spec (routeLinksOf st f0) ((t0 :: ts2).map (fun s => s.id)) f0.id).1 idp hb
          exact hno ⟨idp, hsp, hend⟩
      rw [routeGo, hfind, hbfs]

/-- Claim C8, counterexample: a to candidate on the same route as the
seed but with no incident edge rows is rejected by the graph membership
check; it is not kept as an isolated node. -/
theorem c8_isolated_cex :
    routeGo isolatedStore [segA] [segB] = .error "to segment 2 not found in route graph" ∧
    segB.routeID = segA.routeID ∧ isolatedStore.links = [] := by
  refine ⟨by decide, rfl, rfl⟩

/-- Claim C8 as amended: routeGo fails with the not-found error whenever
some to candidate id is outside the key set built from the route link
rows plus the first from candidate; only the first from candidate is kept
as a node without edges, so an edgeless to candidate with a different id
is rejected by the membership check. -/
theorem c8_membership_amended (st : Store) (fs ts : List segment) (t : segment)
    (hf : fs ≠ []) (htm : t ∈ ts) (hmiss : t.id ∉ graphKeysGo st fs) :
    (∃ u ∈ ts, routeGo st fs ts =
      .error ("to segment " ++ toString u.id ++ " not found in route graph")) ∧
    (fs.headD default).id ∈ graphKeysGo st fs := by
  cases fs with
  | nil => exact absurd rfl hf
  | cons f0 fs2 =>
    constructor
    · cases ts with
      | nil => cases htm
      | cons t0 ts2 =>
        have hex : ∃ x ∈ t0 :: ts2, (fun u => decide (u.id ∉
            f0.id :: ((routeLinksOf st f0).map Prod.fst ++ (routeLinksOf st f0).map Prod.snd))) x = true := by
          refine ⟨t, htm, ?_⟩
          rw [graphKeysGo] at hmiss
          simp only [decide_eq_true_eq]
          exact hmiss
        have hsome : ((t0 :: ts2).find? (fun u => decide (u.id ∉
            f0.id :: ((routeLinksOf st f0).map Prod.fst ++ (routeLinksOf st f0).map Prod.snd)))).isSome := by
          rw [List.find?_isSome]
          exact hex
        cases hfind : (t0 :: ts2).find? (fun u => decide (u.id ∉
            f0.id :: ((routeLinksOf st f0).map Prod.fst ++ (routeLinksOf st f0).map Prod.snd))) with
        | none => rw [hfind] at hsome; cases hsome
        | some u =>
          refine ⟨u, List.mem_of_find?_eq_some hfind, ?_⟩
          rw [routeGo, hfind]
    · rw [graphKeysGo]
      exact List.mem_cons_self _ _

/-- A directed adjacency edge row of one route in the store. -/
def edgeOf (st : Store) (rid a b : Int) : Prop :=
  ∃ l ∈ st.links, l.routeID = rid ∧ l.id = a ∧ l.nextID = b

/-- Chain transport along a relation implication that may use list
membership of both endpoints. -/
theorem chain'_imp_mem {α : Type} (R S : α → α → Prop) :
    ∀ (l : List α), (∀ a ∈ l, ∀ b ∈ l, R a b → S a b) → l.Chain' R → l.Chain' S := by
  intro l
  induction l with
  | nil => intro _ _; exact List.chain'_nil
  | cons a t ih =>
    intro hmem hch
    cases t with
    | nil => exact List.chain'_singleton a
    | cons b t2 =>
      rw [List.chain'_cons] at hch ⊢
      refine ⟨hmem a (by simp) b (by simp) hch.1, ?_⟩
      exact ih (fun x hx y hy h => hmem x (List.mem_cons_of_mem a hx)
        y (List.mem_cons_of_mem a hy) h) hch.2

/-- The last element of a list belongs to it. -/
theorem mem_of_getLast?Eq {α : Type} :
    ∀ (l : List α) (a : α), l.getLast? = some a → a ∈ l := by
  intro l
  induction l with
  | nil => intro a h; cases h
  | cons x t ih =>
    intro a h
    cases t with
    | nil =>
      simp only [List.getLast?_singleton, Option.some.injEq] at h
      simp [h]
    | cons y t2 =>
      rw [List.getLast?_cons_cons] at h
      exact List.mem_cons_of_mem x (ih a h)

/-- With duplicate-free ids and a present first candidate, the route link
subquery resolves to the filter on its route id. -/
theorem routeLinksOf_eq (st : Store) (f0 : segment)
    (hids : (st.segments.map (fun s => s.id)).Nodup) (hf0 : f0 ∈ st.segments) :
    routeLinksOf st f0 =
      (st.links.filter (fun l => decide (l.routeID = f0.routeID))).map
        (fun l => (l.id, l.nextID)) := by
  unfold routeLinksOf storeLookup
  rw [find_eq_of_nodup_ids st.segments hids f0 hf0]

/-- Membership in an adjacency list is membership of the pair. -/
theorem mem_adjOf_iff (links : List (Int × Int)) (a b : Int) :
    b ∈ adjOf links a ↔ (a, b) ∈ links := by
  unfold adjOf
  constructor
  · intro h
    obtain ⟨⟨x, y⟩, hl, hle⟩ := List.mem_map.1 h
    have hf := List.mem_filter.1 hl
    have h1 : x = a := by simpa using hf.2
    have h2 : y = b := by simpa using hle
    rw [← h1, ← h2]
    exact hf.1
  · intro h
    exact List.mem_map.2 ⟨(a, b), List.mem_filter.2 ⟨h, by simp⟩, rfl⟩

/-- Claim C10: a successful path finder call returns a simple path of the
first from candidate's route graph: it starts at that candidate, ends at
some to candidate, repeats no segment id, steps only along directed
adjacency edge rows of that route, and is a single segment exactly when
the first from candidate is itself a to candidate. -/
theorem c10_route_path (st : Store) (f0 : segment) (fs ts : List segment) (p : List segment)
    (hids : (st.segments.map (fun s => s.id)).Nodup)
    (hf0 : f0 ∈ st.segments)
    (hts : ∀ t ∈ ts, t ∈ st.segments)
    (hok : routeGo st (f0 :: fs) ts = .ok p) :
    p.head? = some f0 ∧
    (∃ t ∈ ts, p.getLast? = some t) ∧
    (p.map (fun s => s.id)).Nodup ∧
    p.Chain' (fun a b => edgeOf st f0.routeID a.id b.id) ∧
    (p.length = 1 ↔ f0 ∈ ts) := by
  obtain ⟨htsne, idp, hbfs, hge, hfetch⟩ := routeGo_ok_elim st f0 fs ts p hok
  obtain ⟨⟨hne, hhead, hnd, hch⟩, hend, hmin⟩ :=
    (bfsGo_spec (routeLinksOf st f0) (ts.map (fun s => s.id)) f0.id).1 idp hbfs
  have hflnd := filter_ids_nodup st idp hids
  have hle := filter_ids_le st idp hids
  have hlen : (st.segments.filter (fun s => decide (s.id ∈ idp))).length = idp.length := by
    omega
  have hsur := filter_ids_sur st idp hids hge
  have hmapeq : p = idp.map (fun i =>
      (((st.segments.filter (fun s => decide (s.id ∈ idp))).reverse.find?
        (fun s => decide (s.id = i))).getD default)) := by
    rw [hfetch]
    exact fetchGo_eq_map idp _ hlen.symm
  have lkSpec : ∀ i ∈ idp, ∀ u, u ∈ st.segments → u.id = i →
      (((st.segments.filter (fun s => decide (s.id ∈ idp))).reverse.find?
        (fun s => decide (s.id = i))).getD default) = u := by
    intro i hi u hu hui
    subst hui
    have hufl : u ∈ st.segments.filter (fun s => decide (s.id ∈ idp)) :=
      List.mem_filter.2 ⟨hu, by simpa using hi⟩
    rw [revFind_eq _ hflnd u hufl]
    rfl
  have lkid : ∀ i ∈ idp,
      ((((st.segments.filter (fun s => decide (s.id ∈ idp))).reverse.find?
        (fun s => decide (s.id = i))).getD default)).id = i := by
    intro i hi
    obtain ⟨u, hufl, hui⟩ := hsur i hi
    have hu : u ∈ st.segments := (List.mem_filter.1 hufl).1
    rw [lkSpec i hi u hu hui]
    exact hui
  have hf0id : f0.id ∈ idp := by
    cases idp with
    | nil => exact absurd rfl hne
    | cons a t =>
      simp only [List.head?_cons, Option.some.injEq] at hhead
      rw [← hhead]
      simp
  have hmapid : p.map (fun s => s.id) = idp := by
    rw [hmapeq, List.map_map]
    have : ∀ i ∈ idp, ((((st.segments.filter (fun s => decide (s.id ∈ idp))).reverse.find?
        (fun s => decide (s.id = i))).getD default)).id = i := lkid
    calc idp.map _ = idp.map id := List.map_congr_left (fun i hi => this i hi)
    _ = idp := List.map_id idp
  refine ⟨?_, ?_, ?_, ?_, ?_⟩
  · rw [hmapeq, List.head?_map, hhead]
    simp only [Option.map_some']
    rw [lkSpec f0.id hf0id f0 hf0 rfl]
  · have hlast : idp.getLast? = some (idp.getLastD 0) := by
      rw [List.getLastD_eq_getLast?]
      cases hg : idp.getLast? with
      | none => exact absurd (List.getLast?_eq_none_iff.1 hg) hne
      | some v => rfl
    obtain ⟨t, htmem, htid⟩ := List.mem_map.1 hend
    refine ⟨t, htmem, ?_⟩
    rw [hmapeq, List.getLast?_map, hlast]
    simp only [Option.map_some']
    rw [lkSpec (idp.getLastD 0) (mem_of_getLast?Eq idp _ hlast) t (hts t htmem) htid]
  · rw [hmapid]
    exact hnd
  · rw [hmapeq]
    rw [List.chain'_map]
    refine chain'_imp_mem _ _ idp ?_ hch
    intro a ha b hb hr
    have hconv : (a, b) ∈ (st.links.filter (fun l => decide (l.routeID = f0.routeID))).map
        (fun l => (l.id, l.nextID)) := by
      rw [← routeLinksOf_eq st f0 hids hf0]
      exact (mem_adjOf_iff _ a b).1 hr
    obtain ⟨l, hl, hpair⟩ := List.mem_map.1 hconv
    have hl2 := List.mem_filter.1 hl
    have hid : l.id = a := by
      have := congrArg Prod.fst hpair
      simpa using this
    have hnid : l.nextID = b := by
      have := congrArg Prod.snd hpair
      simpa using this
    rw [lkid a ha, lkid b hb]
    exact ⟨l, hl2.1, by simpa using hl2.2, hid, hnid⟩
  · constructor
    · intro hp1
      have hidlen : idp.length = 1 := by
        have := congrArg List.length hmapid
        rw [List.length_map] at this
        omega
      obtain ⟨x, rfl⟩ : ∃ x, idp = [x] := by
        cases idp with
        | nil => simp at hidlen
        | cons a t =>
          cases t with
          | nil => exact ⟨a, rfl⟩
          | cons b t2 => simp at hidlen
      simp only [List.head?_cons, Option.some.injEq] at hhead
      have : x ∈ ts.map (fun t => t.id) := by simpa using hend
      obtain ⟨t, htmem, htid⟩ := List.mem_map.1 this
      have : t = f0 := seg_id_inj st hids t f0 (hts t htmem) hf0 (by rw [htid, ← hhead])
      rw [← this]
      exact htmem
    · intro hf0ts
      have hseed : f0.id ∈ ts.map (fun t => t.id) := List.mem_map.2 ⟨f0, hf0ts, rfl⟩
      have := bfsGo_seed_mem (routeLinksOf st f0) (ts.map (fun t => t.id)) f0.id hseed
      rw [this] at hbfs
      have hidp1 : idp = [f0.id] := by
        cases hbfs
        rfl
      have := congrArg List.length hmapid
      rw [List.length_map, hidp1] at this
      simpa using this

/-- Invariant of the longest-route loop: the result is at least as long
as the running path, is the running path or one of the per-candidate
searches, and is at least as long as every per-candidate search result. -/
theorem longestLoop_spec (st : Store) (seed : segment) :
    ∀ (ends path res : List segment),
      longestLoop st seed path ends = .ok res →
      path.length ≤ res.length ∧
      (res = path ∨ ∃ e ∈ ends, routeGo st [seed] [e] = .ok res) ∧
      (∀ e ∈ ends, ∀ c, routeGo st [seed] [e] = .ok c → c.length ≤ res.length) := by
  intro ends
  induction ends with
  | nil =>
    intro path res h
    rw [longestLoop] at h
    cases h
    exact ⟨le_refl _, Or.inl rfl, by simp⟩
  | cons e es ih =>
    intro path res h
    rw [longestLoop] at h
    cases hr : routeGo st [seed] [e] with
    | error err => rw [hr] at h; cases h
    | ok c =>
      rw [hr] at h
      obtain ⟨h1, h2, h3⟩ := ih _ _ h
      by_cases hlt : path.length < c.length
      · rw [if_pos hlt] at h1 h2
        refine ⟨by omega, ?_, ?_⟩
        · rcases h2 with rfl | ⟨e2, he2, hre⟩
          · exact Or.inr ⟨e, List.mem_cons_self e es, hr⟩
          · exact Or.inr ⟨e2, List.mem_cons_of_mem e he2, hre⟩
        · intro e2 he2 c2 hc2
          rcases List.mem_cons.1 he2 with rfl | he3
          · rw [hr] at hc2
            cases hc2
            omega
          · exact h3 e2 he3 c2 hc2
      · rw [if_neg hlt] at h1 h2
        refine ⟨h1, ?_, ?_⟩
        · rcases h2 with rfl | ⟨e2, he2, hre⟩
          · exact Or.inl rfl
          · exact Or.inr ⟨e2, List.mem_cons_of_mem e he2, hre⟩
        · intro e2 he2 c2 hc2
          rcases List.mem_cons.1 he2 with rfl | he3
          · rw [hr] at hc2
            cases hc2
            omega
          · exact h3 e2 he3 c2 hc2

/-- Claim C3, counterexample: with start candidates [1, 2] on the chain
1-2-3-4 and a from-only request, route discovery returns the three
segments from the trimmed head 2, although searching from the original
first start segment 1 to end candidate 4 yields a strictly longer path;
the longest path found from the original first start segment is not what
is returned. -/
theorem c3_seed_cex :
    routeDiscoveryGo chainStore ⟨reqFromOnly, [segA, segB], [segC, segD]⟩ =
      .ok [segB, segC, segD] ∧
    segD ∈ [segC, segD] ∧
    routeGo chainStore [segA] [segD] = .ok [segA, segB, segC, segD] ∧
    ([segB, segC, segD] : List segment).length <
      ([segA, segB, segC, segD] : List segment).length := by
  refine ⟨by decide, by decide, by decide, by decide⟩

/-- Claim C3 as amended: for a request whose to is empty or textually
equal to a non-empty from, route discovery searches, for every end
candidate, a path seeded from the first segment of the already-found and
trimmed route (not necessarily the original first start segment), and
returns the longest path found overall by segment count: the result is
one of the candidates and no candidate, including the trimmed route
itself, is longer. -/
theorem c3_longest_amended (st : Store) (req : request) (ss es res : List segment)
    (hcond : req.toStr = "" ∨ req.toStr = req.fromStr)
    (hne : ¬ (req.fromStr = "" ∧ req.toStr = ""))
    (hres : routeDiscoveryGo st ⟨req, ss, es⟩ = .ok res) :
    ∃ route0, routeGo st ss es = .ok route0 ∧
      (trimGo ss route0).length ≤ res.length ∧
      (res = trimGo ss route0 ∨
        ∃ e ∈ es, routeGo st [(trimGo ss route0).headD default] [e] = .ok res) ∧
      (∀ e ∈ es, ∀ c, routeGo st [(trimGo ss route0).headD default] [e] = .ok c →
        c.length ≤ res.length) := by
  have hfrom : ¬ (req.fromStr = "") := by
    intro hf
    rcases hcond with ht | ht
    · exact hne ⟨hf, ht⟩
    · exact hne ⟨hf, by rw [ht, hf]⟩
  unfold routeDiscoveryGo at hres
  rw [if_neg (by intro hc; exact hfrom hc.1)] at hres
  cases hr : routeGo st ss es with
  | error e =>
    rw [hr] at hres
    cases hres
  | ok route0 =>
    rw [hr] at hres
    dsimp only at hres
    rw [if_neg hfrom, if_pos hcond] at hres
    obtain ⟨h1, h2, h3⟩ := longestLoop_spec st ((trimGo ss route0).headD default) es
      (trimGo ss route0) res hres
    exact ⟨route0, rfl, h1, h2, h3⟩

/-- Witness for c2_path_finder on the chain store: dropping the second
from candidate does not change the result. -/
theorem c2_path_finder_witness :
    routeGo chainStore [segA, segB] [segD] = routeGo chainStore [segA] [segD] :=
  (c2_path_finder chainStore segA [segB] [segD] (by decide) (by decide)).1

/-- Witness for c10_route_path on the chain store: the returned path
starts at the first from candidate. -/
theorem c10_route_path_witness :
    ([segA, segB, segC, segD] : List segment).head? = some segA :=
  (c10_route_path chainStore segA [] [segD] [segA, segB, segC, segD]
    (by decide) (by decide) (by decide) (by decide)).1

/-- Witness for c8_membership_amended on the edgeless store. -/
theorem c8_membership_amended_witness :
    (∃ u ∈ [segB], routeGo isolatedStore [segA] [segB] =
      .error ("to segment " ++ toString u.id ++ " not found in route graph")) ∧
    (([segA] : List segment).headD default).id ∈ graphKeysGo isolatedStore [segA] :=
  c8_membership_amended isolatedStore [segA] [segB] segB (by decide) (by decide) (by decide)

/-- Witness for c3_longest_amended at the chain-store request. -/
theorem c3_longest_amended_witness :
    ∃ route0, routeGo chainStore [segA, segB] [segC, segD] = .ok route0 ∧
      (trimGo [segA, segB] route0).length ≤ ([segB, segC, segD] : List segment).length ∧
      ([segB, segC, segD] = trimGo [segA, segB] route0 ∨
        ∃ e ∈ [segC, segD], routeGo chainStore
          [(trimGo [segA, segB] route0).headD default] [e] = .ok [segB, segC, segD]) ∧
      (∀ e ∈ [segC, segD], ∀ c, routeGo chainStore
          [(trimGo [segA, segB] route0).headD default] [e] = .ok c →
        c.length ≤ ([segB, segC, segD] : List segment).length) :=
  c3_longest_amended chainStore reqFromOnly [segA, segB] [segC, segD] [segB, segC, segD]
    (Or.inl rfl) (by decide) (by decide)

/-- Witness for c6_start_route_ambiguity: a request matching no segment
resolves to the empty set without an error. -/
theorem c6_start_route_ambiguity_witness :
    startDiscoveryGo chainStore ⟨reqOvA, [], []⟩ = .ok [] := by
  have h := c6_start_route_ambiguity chainStore ⟨reqOvA, [], []⟩
  have hc : ∀ a ∈ filterSegmentsGo chainStore (startFilter ⟨reqOvA, [], []⟩),
      ∀ b ∈ filterSegmentsGo chainStore (startFilter ⟨reqOvA, [], []⟩),
      a.routeID = b.routeID := by decide
  rw [if_pos hc] at h
  have he : filterSegmentsGo chainStore (startFilter ⟨reqOvA, [], []⟩) = [] := by decide
  rw [he] at h
  exact h

end Calmmap
